import Mathlib

/-!
Verification of the latinbingo repository (`main.py`, `create_pdf.py`).

Strings are modelled as `List Char`; PIL fonts are modelled as width
functions `List Char → Nat` (the code only ever uses
`bbox = font.getbbox(s); width = bbox[2] - bbox[0]`, i.e. a pure width
measurement).  The process-wide random source (`random.sample`,
`random.shuffle`) is modelled by explicit function parameters whose
contracts (sub-permutation / permutation) appear as hypotheses.  The
reportlab canvas and the filesystem are modelled by explicit event traces.
-/

namespace Bingo

open List (Perm Subperm)

open scoped List

abbrev Str := List Char

abbrev Font := Str → Nat

abbrev Tok := Str × Bool

abbrev WLine := List Tok

/-- Default token, used only for `getD` style lookups that are never hit. -/
def dTok : Tok := ([], false)

/-- `' '.join ws` -/
def joinSp (ws : List Str) : Str := List.intercalate [' '] ws

/-- Python `str.split()`: split on whitespace runs, dropping empty pieces. -/
def pySplit : Str → List Str
  | [] => []
  | c :: rest =>
    if c.isWhitespace then pySplit rest
    else
      match rest with
      | [] => [[c]]
      | d :: _ =>
        if d.isWhitespace then [c] :: pySplit rest
        else
          match pySplit rest with
          | [] => [[c]]
          | w :: ws => (c :: w) :: ws

/-- Slash pre-split of one word (`main.py` lines 158-168 / 36-46): a word
containing `'/'` and longer than 6 characters is split at each slash, the
slash kept as a suffix on all but the last fragment. -/
def slashSplit (w : Str) : List Str :=
  if '/' ∈ w ∧ 6 < w.length then
    let parts := w.splitOn '/'
    parts.dropLast.map (· ++ ['/']) ++ [parts.getLastD []]
  else [w]

/-! ### Bold-segment parser (`parse_bold_text`, `main.py` lines 94-128) -/

/-- `text.find('**')`: splits `t` at the first occurrence of `**`,
returning the part before the marker and the part after it. -/
def splitFirstMarker : Str → Option (Str × Str)
  | [] => none
  | [_] => none
  | c1 :: c2 :: rest =>
    if c1 = '*' ∧ c2 = '*' then some ([], rest)
    else
      match splitFirstMarker (c2 :: rest) with
      | none => none
      | some (b, a) => some (c1 :: b, a)

/-- Fuel-indexed body of `parse_bold_text`; the fuel only bounds the number
of loop iterations and is irrelevant once it exceeds the text length. -/
def parseBoldFuel : Nat → Str → List (Str × Bool)
  | 0, _ => []
  | fuel + 1, t =>
    match splitFirstMarker t with
    | none => if t = [] then [] else [(t, false)]
    | some (before, after) =>
      match splitFirstMarker after with
      | none =>
        (if before = [] then [] else [(before, false)]) ++ [('*' :: '*' :: after, false)]
      | some (bold, rest) =>
        (if before = [] then [] else [(before, false)]) ++
          (if bold = [] then [] else [(bold, true)]) ++ parseBoldFuel fuel rest

/-- `parse_bold_text` (`main.py` lines 94-128). -/
def parse_bold_text (t : Str) : List (Str × Bool) := parseBoldFuel (t.length + 1) t

/-- Concatenation of the text of all segments. -/
def segsText (segs : List (Str × Bool)) : Str := (segs.map (·.1)).flatten

/-- The input with all `**` markers removed (leftmost-first, like
`str.replace('**', '')`); this is the spec-side notion of
"the original string with the `**` markers removed". -/
def removeMarkers : Str → Str
  | [] => []
  | [c] => [c]
  | c :: d :: rest2 =>
    if c = '*' ∧ d = '*' then removeMarkers rest2
    else c :: removeMarkers (d :: rest2)

/-- Fuel-indexed "every opening `**` marker has a closing one". -/
def balancedBoldFuel : Nat → Str → Bool
  | 0, _ => false
  | fuel + 1, t =>
    match splitFirstMarker t with
    | none => true
    | some (_, after) =>
      match splitFirstMarker after with
      | none => false
      | some (_, rest) => balancedBoldFuel fuel rest

/-- Every `**` marker in `t` is part of a matched (opening, closing) pair. -/
def balancedBold (t : Str) : Bool := balancedBoldFuel (t.length + 1) t

/-! ### Word-wrap engine with bold support
(`wrap_text_with_bold`, `main.py` lines 147-191) -/

/-- Font used to measure a token: bold font if the token is flagged bold. -/
def tokFont (fn fb : Font) (t : Tok) : Font := if t.2 then fb else fn

/-- The token list fed to the greedy loop: for every bold segment, whitespace
splitting followed by the slash pre-split, each token tagged with the
segment's emphasis flag (`main.py` lines 154-168). -/
def segTokens (seg : Str × Bool) : List Tok :=
  (pySplit seg.1).flatMap (fun w => (slashSplit w).map (fun p => (p, seg.2)))

def boldTokens (text : Str) : List Tok :=
  (parse_bold_text text).flatMap segTokens

/-- One iteration of the greedy loop (`main.py` lines 170-186): measure the
current line extended by `tok` using the font of `tok`; append if it fits or
if the current line is empty, otherwise close the current line and start a
new one with `tok`.  (`current_line_width` in the source is written but never
read, so it is not part of the state.) -/
def wrapStep (fn fb : Font) (maxw : Nat) (st : List WLine × WLine) (tok : Tok) :
    List WLine × WLine :=
  let tw := tokFont fn fb tok (joinSp (st.2.map (·.1) ++ [tok.1]))
  if tw ≤ maxw ∨ st.2 = [] then (st.1, st.2 ++ [tok])
  else (st.1 ++ [st.2], [tok])

/-- The greedy loop over an arbitrary token list, with the trailing
`if current_line: lines.append(current_line)`. -/
def wrapTokens (fn fb : Font) (maxw : Nat) (toks : List Tok) : List WLine :=
  let st := toks.foldl (wrapStep fn fb maxw) ([], [])
  if st.2 = [] then st.1 else st.1 ++ [st.2]

/-- `wrap_text_with_bold` (`main.py` lines 147-191). -/
def wrap_text_with_bold (text : Str) (fn fb : Font) (maxw : Nat) : List WLine :=
  wrapTokens fn fb maxw (boldTokens text)

/-- `' '.join`-based text of a line's tokens. -/
def lineText (l : WLine) : Str := joinSp (l.map (·.1))

/-- Measured width of a produced line, exactly as the engine last measured
it: the joined words, measured with the font of the line's last token. -/
def lineWidth (fn fb : Font) (l : WLine) : Nat :=
  tokFont fn fb (l.getD (l.length - 1) dTok) (lineText l)

/-! ### Plain word wrap with force-breaking
(`wrap_text_pil`, `main.py` lines 33-92; defined in the source but not
called by the cell renderer) -/

/-- The `for i in range(0, len(word), 8)` chunking loop, fuel-indexed by the
word length: returns the lines appended (each chunk plus a trailing hyphen)
and the final chunk left as the current line. -/
def chunks8Fuel : Nat → Str → List Str × Str
  | 0, w => ([], w)
  | fuel + 1, w =>
    if w.length ≤ 8 then ([], w)
    else
      let r := chunks8Fuel fuel (w.drop 8)
      ((w.take 8 ++ ['-']) :: r.1, r.2)

def chunks8 (w : Str) : List Str × Str := chunks8Fuel w.length w

/-- One iteration of the `wrap_text_pil` loop (`main.py` lines 51-87),
including the force-break of long words (hyphens first, then 8-character
chunks). -/
def wrapPilStep (font : Font) (maxw : Nat) (st : List Str × List Str) (word : Str) :
    List Str × List Str :=
  let width := font (joinSp (st.2 ++ [word]))
  if width ≤ maxw then (st.1, st.2 ++ [word])
  else if st.2 ≠ [] then (st.1 ++ [joinSp st.2], [word])
  else if maxw < font word ∧ 12 < word.length then
    if '-' ∈ word then
      let parts := word.splitOn '-'
      (st.1 ++ parts.dropLast.map (· ++ ['-']), [parts.getLastD []])
    else
      let r := chunks8 word
      (st.1 ++ r.1, [r.2])
  else (st.1, [word])

/-- `wrap_text_pil` (`main.py` lines 33-92). -/
def wrap_text_pil (text : Str) (font : Font) (maxw : Nat) : List Str :=
  let words := (pySplit text).flatMap slashSplit
  let st := words.foldl (wrapPilStep font maxw) ([], [])
  if st.2 = [] then st.1 else st.1 ++ [joinSp st.2]

/-! ### Card composer (`create_bingo_card`, `main.py` lines 193-226) -/

/-- `squares[0] if squares else "FREE"`. -/
def freeSpaceOf (squares : List Str) : Str := squares.headD ("FREE".toList)

/-- `squares[1:min(len(squares), 24)]`, the list the padding loop extends
`other_squares` with. -/
def padSource (squares : List Str) : List Str :=
  (squares.take (min squares.length 24)).drop 1

/-- The `while len(other_squares) < 24: other_squares.extend(...)` loop
(`main.py` lines 202-203), fuel-indexed: `none` means the fuel ran out with
the length still below 24, which for an empty extension list models the
loop never terminating. -/
def padWhile (ext : List Str) : Nat → List Str → Option (List Str)
  | 0, cur => if cur.length < 24 then none else some cur
  | fuel + 1, cur => if cur.length < 24 then padWhile ext fuel (cur ++ ext) else some cur

/-- One cell of the 5x5 grid loop (`main.py` lines 216-224): accumulate the
row and thread `square_index`. -/
def buildRowStep (free : Str) (others : List Str) (row : Nat)
    (acc : List Str × Nat) (col : Nat) : List Str × Nat :=
  if row = 2 ∧ col = 2 then (acc.1 ++ [free], acc.2)
  else (acc.1 ++ [others.getD acc.2 free], acc.2 + 1)

def buildCardStep (free : Str) (others : List Str)
    (acc : List (List Str) × Nat) (row : Nat) : List (List Str) × Nat :=
  let r := (List.range 5).foldl (buildRowStep free others row) ([], acc.2)
  (acc.1 ++ [r.1], r.2)

/-- The 5x5 grid construction with the free space at row 2, column 2. -/
def buildCard (free : Str) (others : List Str) : List (List Str) :=
  ((List.range 5).foldl (buildCardStep free others) ([], 0)).1

/-- `create_bingo_card` (`main.py` lines 193-226).  `sample` models
`random.sample(·, 24)` and `shuffle` models `random.shuffle`; their
contracts appear as hypotheses of the theorems.  `fuel` bounds the padding
loop's iterations (`none` = the loop does not terminate within `fuel`
rounds). -/
def create_bingo_card (sample shuffle : List Str → List Str)
    (squares : List Str) (fuel : Nat) : Option (List (List Str)) :=
  let free := freeSpaceOf squares
  let others := if 1 < squares.length then squares.drop 1 else []
  if others.length < 24 then
    (padWhile (padSource squares) fuel others).map
      (fun p => buildCard free (shuffle (p.take 24)))
  else some (buildCard free (shuffle (sample others)))

/-- The center cell (row 2, column 2). -/
def centerCell (card : List (List Str)) : Str := (card.getD 2 []).getD 2 []

/-- The 24 non-center cells in row-major order. -/
def nonCenterCells (card : List (List Str)) : List Str :=
  (card.flatten.take 12) ++ (card.flatten.drop 13)

/-! ### Shrink-to-fit tiers (`draw_bingo_on_template`,
`main.py` lines 295-313 and 361-396) -/

inductive FontTier where
  | large
  | medium
  | small
deriving DecidableEq

/-- `font_large if size >= 65 else font_medium if size >= 55 else font_small`
(`main.py` lines 298-299, 366-369). -/
def tierForSize (size : Nat) : FontTier :=
  if 65 ≤ size then .large else if 55 ≤ size then .medium else .small

/-- `format_square_text` (`main.py` lines 19-31): the (text, size) blocks of
a square. -/
def format_square_text (sq : Str) : List (Str × Nat) :=
  let lines := sq.splitOn '\n'
  if lines.length = 1 then [(lines.getD 0 [], 70)]
  else if lines.length = 2 then [(lines.getD 0 [], 65), (lines.getD 1 [], 45)]
  else [(sq, 60)]

/-- The one demotion step, from each tier to the next smaller one. -/
def demoteTier : FontTier → FontTier
  | .large => .medium
  | .medium => .small
  | .small => .small

/-- The `if len(wrapped) > thr: if font == large: ... elif font == medium:
...` blocks (`main.py` lines 305-313, 377-385, 388-396), assuming the three
tier fonts are distinct objects (the non-degraded font-loading case):
wrap at the starting tier, and on overflow demote once and re-wrap. -/
def shrinkOnce (wrapAt : FontTier → List WLine) (thr : Nat) (t0 : FontTier) :
    FontTier × List WLine :=
  let w0 := wrapAt t0
  if thr < w0.length then
    match t0 with
    | .large => (.medium, wrapAt .medium)
    | .medium => (.small, wrapAt .small)
    | .small => (.small, w0)
  else (t0, w0)

/-- The wrap the renderer performs at a given tier for one cell:
`wrap_text_with_bold(text, font_normal, font_bold, cell_width - 40)`. -/
def cellWrapAt (text : Str) (fonts : FontTier → Font × Font) (maxw : Nat)
    (t : FontTier) : List WLine :=
  wrap_text_with_bold text (fonts t).1 (fonts t).2 maxw

/-- Single-block mode (`main.py` lines 295-313): threshold 4 lines,
starting tier from the block's font size. -/
def fitSingleBlock (text : Str) (fonts : FontTier → Font × Font) (maxw : Nat)
    (size : Nat) : FontTier × List WLine :=
  shrinkOnce (cellWrapAt text fonts maxw) 4 (tierForSize size)

/-! ### PDF assembler (`create_pdf.py`) -/

inductive PdfEvent where
  | error
  | canvas
  | save
  | draw (card slot : Nat)
  | label (card : Nat)
  | footer (page : Nat)
  | pageBreak
deriving DecidableEq

/-- One iteration of the four-per-page loop (`create_pdf.py` lines 119-152)
for card index `i` out of `n`; state is (trace, cards_on_page, page_num). -/
def fourStep (n : Nat) (st : List PdfEvent × Nat × Nat) (i : Nat) :
    List PdfEvent × Nat × Nat :=
  let evs := st.1 ++ [.draw i st.2.1, .label i]
  let cop := st.2.1 + 1
  if 4 ≤ cop ∨ i = n - 1 then
    let evs := evs ++ [.footer st.2.2]
    if i < n - 1 then (evs ++ [.pageBreak], 0, st.2.2 + 1)
    else (evs, 0, st.2.2)
  else (evs, cop, st.2.2)

/-- The canvas-event trace of the four-per-page loop for `n` card files. -/
def fourPerPageTrace (n : Nat) : List PdfEvent :=
  ((List.range n).foldl (fourStep n) ([], 0, 1)).1

/-- One iteration of the one-per-page loop (`create_pdf.py` lines 34-66). -/
def oneStep (n : Nat) (st : List PdfEvent) (i : Nat) : List PdfEvent :=
  st ++ [.draw i 0] ++ (if i < n - 1 then [.pageBreak] else [])

def onePerPageTrace (n : Nat) : List PdfEvent :=
  (List.range n).foldl (oneStep n) []

/-- `create_bingo_pdf` (`create_pdf.py` lines 8-76) as an event trace:
`dirExists` is whether the `finals` folder exists, `n` the number of
matching card files found there. -/
def create_bingo_pdf (dirExists : Bool) (n : Nat) : List PdfEvent :=
  if dirExists = false then [.error]
  else if n = 0 then [.error]
  else .canvas :: onePerPageTrace n ++ [.save]

/-- `create_multiple_per_page_pdf` (`create_pdf.py` lines 78-156) as an
event trace. -/
def create_multiple_per_page_pdf (dirExists : Bool) (n : Nat) : List PdfEvent :=
  if dirExists = false then [.error]
  else if n = 0 then [.error]
  else .canvas :: fourPerPageTrace n ++ [.save]

/-- Split a trace into pages at the `pageBreak` events. -/
def splitPages : List PdfEvent → List (List PdfEvent)
  | [] => [[]]
  | e :: rest =>
    if e = .pageBreak then [] :: splitPages rest
    else
      match splitPages rest with
      | [] => [[e]]
      | p :: ps => (e :: p) :: ps

def isDrawEv : PdfEvent → Bool
  | .draw _ _ => true
  | _ => false

/-- Number of card placements in a trace fragment. -/
def drawCount (evs : List PdfEvent) : Nat := (evs.filter isDrawEv).length

/-- The page numbers stamped in a trace fragment, in order. -/
def footerNums (evs : List PdfEvent) : List Nat :=
  evs.filterMap (fun e => match e with | .footer p => some p | _ => none)

/-! ## Lemmas about the bold-segment parser -/

lemma splitFirstMarker_len {t b a : Str} (h : splitFirstMarker t = some (b, a)) :
    a.length + 2 ≤ t.length := by
  induction t generalizing b a with
  | nil => simp [splitFirstMarker] at h
  | cons c1 tl ih =>
    cases tl with
    | nil => simp [splitFirstMarker] at h
    | cons c2 rest =>
      rw [splitFirstMarker] at h
      split at h
      · obtain ⟨rfl, rfl⟩ : [] = b ∧ rest = a := by simpa using h
        simp
      · cases hx : splitFirstMarker (c2 :: rest) with
        | none => rw [hx] at h; simp at h
        | some pr =>
          obtain ⟨b', a'⟩ := pr
          rw [hx] at h
          obtain ⟨rfl, rfl⟩ : c1 :: b' = b ∧ a' = a := by simpa using h
          have := ih hx
          simp at this ⊢
          omega

lemma removeMarkers_none {t : Str} (h : splitFirstMarker t = none) :
    removeMarkers t = t := by
  induction t with
  | nil => rfl
  | cons c1 tl ih =>
    cases tl with
    | nil => rfl
    | cons c2 rest =>
      rw [splitFirstMarker] at h
      split at h
      · simp at h
      next hstar =>
        rw [removeMarkers, if_neg hstar]
        cases hx : splitFirstMarker (c2 :: rest) with
        | none => rw [ih hx]
        | some pr => rw [hx] at h; simp at h

lemma removeMarkers_split {t b a : Str} (h : splitFirstMarker t = some (b, a)) :
    removeMarkers t = b ++ removeMarkers a := by
  induction t generalizing b a with
  | nil => simp [splitFirstMarker] at h
  | cons c1 tl ih =>
    cases tl with
    | nil => simp [splitFirstMarker] at h
    | cons c2 rest =>
      rw [splitFirstMarker] at h
      split at h
      next hstar =>
        obtain ⟨rfl, rfl⟩ : [] = b ∧ rest = a := by simpa using h
        obtain ⟨rfl, rfl⟩ := hstar
        simp [removeMarkers]
      next hstar =>
        cases hx : splitFirstMarker (c2 :: rest) with
        | none => rw [hx] at h; simp at h
        | some pr =>
          obtain ⟨b', a'⟩ := pr
          rw [hx] at h
          obtain ⟨rfl, rfl⟩ : c1 :: b' = b ∧ a' = a := by simpa using h
          rw [removeMarkers, if_neg hstar, ih hx]
          simp

lemma parseBoldFuel_congr :
    ∀ (f1 f2 : Nat) (t : Str), t.length < f1 → t.length < f2 →
      parseBoldFuel f1 t = parseBoldFuel f2 t := by
  intro f1
  induction f1 with
  | zero => intro f2 t h1 _; omega
  | succ f1 ih =>
    intro f2 t h1 h2
    cases f2 with
    | zero => omega
    | succ f2 =>
      cases hx : splitFirstMarker t with
      | none => simp [parseBoldFuel, hx]
      | some pr =>
        obtain ⟨before, after⟩ := pr
        cases hy : splitFirstMarker after with
        | none => simp [parseBoldFuel, hx, hy]
        | some pr2 =>
          obtain ⟨bold, rest⟩ := pr2
          have hL1 := splitFirstMarker_len hx
          have hL2 := splitFirstMarker_len hy
          simp only [parseBoldFuel, hx, hy]
          rw [ih f2 rest (by omega) (by omega)]

lemma parse_bold_none {t : Str} (hx : splitFirstMarker t = none) :
    parse_bold_text t = if t = [] then [] else [(t, false)] := by
  simp [parse_bold_text, parseBoldFuel, hx]

lemma parse_bold_unmatched {t before after : Str}
    (hx : splitFirstMarker t = some (before, after))
    (hy : splitFirstMarker after = none) :
    parse_bold_text t =
      (if before = [] then [] else [(before, false)]) ++ [('*' :: '*' :: after, false)] := by
  simp [parse_bold_text, parseBoldFuel, hx, hy]

lemma parse_bold_matched {t before after bold rest : Str}
    (hx : splitFirstMarker t = some (before, after))
    (hy : splitFirstMarker after = some (bold, rest)) :
    parse_bold_text t =
      (if before = [] then [] else [(before, false)]) ++
        (if bold = [] then [] else [(bold, true)]) ++ parse_bold_text rest := by
  have hL1 := splitFirstMarker_len hx
  have hL2 := splitFirstMarker_len hy
  have h1 : parse_bold_text t =
      (if before = [] then [] else [(before, false)]) ++
        (if bold = [] then [] else [(bold, true)]) ++ parseBoldFuel t.length rest := by
    simp only [parse_bold_text, parseBoldFuel, hx, hy]
  rw [h1, parseBoldFuel_congr t.length (rest.length + 1) rest (by omega) (by omega)]
  rfl

lemma balancedBoldFuel_congr :
    ∀ (f1 f2 : Nat) (t : Str), t.length < f1 → t.length < f2 →
      balancedBoldFuel f1 t = balancedBoldFuel f2 t := by
  intro f1
  induction f1 with
  | zero => intro f2 t h1 _; omega
  | succ f1 ih =>
    intro f2 t h1 h2
    cases f2 with
    | zero => omega
    | succ f2 =>
      cases hx : splitFirstMarker t with
      | none => simp [balancedBoldFuel, hx]
      | some pr =>
        obtain ⟨before, after⟩ := pr
        cases hy : splitFirstMarker after with
        | none => simp [balancedBoldFuel, hx, hy]
        | some pr2 =>
          obtain ⟨bold, rest⟩ := pr2
          have hL1 := splitFirstMarker_len hx
          have hL2 := splitFirstMarker_len hy
          simp only [balancedBoldFuel, hx, hy]
          exact ih f2 rest (by omega) (by omega)

lemma balancedBold_none {t : Str} (hx : splitFirstMarker t = none) :
    balancedBold t = true := by
  simp [balancedBold, balancedBoldFuel, hx]

lemma balancedBold_unmatched {t before after : Str}
    (hx : splitFirstMarker t = some (before, after))
    (hy : splitFirstMarker after = none) :
    balancedBold t = false := by
  simp [balancedBold, balancedBoldFuel, hx, hy]

lemma balancedBold_matched {t before after bold rest : Str}
    (hx : splitFirstMarker t = some (before, after))
    (hy : splitFirstMarker after = some (bold, rest)) :
    balancedBold t = balancedBold rest := by
  have hL1 := splitFirstMarker_len hx
  have hL2 := splitFirstMarker_len hy
  simp only [balancedBold, balancedBoldFuel, hx, hy]
  exact balancedBoldFuel_congr t.length (rest.length + 1) rest (by omega) (by omega)

lemma segsText_append (xs ys : List (Str × Bool)) :
    segsText (xs ++ ys) = segsText xs ++ segsText ys := by
  simp [segsText]

lemma segsText_if (w : Str) (b : Bool) :
    segsText (if w = [] then [] else [(w, b)]) = w := by
  split
  · simp [segsText, *]
  · simp [segsText]

/-! ## Lemmas about the word-wrap engine -/

lemma joinSp_singleton (w : Str) : joinSp [w] = w := by
  simp [joinSp, List.intercalate]

/-- Prefixes of length `k + 1 ≥ 2` of the line fit when measured with the
font of their last token — exactly what the greedy loop checked when it kept
the `k`-th token on the line. -/
def fitsAt (fn fb : Font) (maxw : Nat) (l : WLine) (k : Nat) : Prop :=
  tokFont fn fb (l.getD k dTok) (joinSp ((l.take (k + 1)).map (·.1))) ≤ maxw

def goodLine (fn fb : Font) (maxw : Nat) (l : WLine) : Prop :=
  ∀ k, 1 ≤ k → k < l.length → fitsAt fn fb maxw l k

lemma goodLine_nil (fn fb : Font) (maxw : Nat) : goodLine fn fb maxw [] := by
  intro k _ h2
  simp at h2

lemma goodLine_singleton (fn fb : Font) (maxw : Nat) (t : Tok) :
    goodLine fn fb maxw [t] := by
  intro k h1 h2
  simp at h2
  omega

lemma goodLine_append {fn fb : Font} {maxw : Nat} {l : WLine} {t : Tok}
    (hl : goodLine fn fb maxw l)
    (hw : tokFont fn fb t (joinSp (l.map (·.1) ++ [t.1])) ≤ maxw) :
    goodLine fn fb maxw (l ++ [t]) := by
  intro k h1 h2
  simp at h2
  rcases Nat.lt_or_ge k l.length with hk | hk
  · have := hl k h1 hk
    unfold fitsAt at this ⊢
    rwa [List.getD_append _ _ _ _ hk, List.take_append_of_le_length (by omega)]
  · have hkeq : k = l.length := by omega
    subst hkeq
    unfold fitsAt
    rw [List.getD_append_right _ _ _ _ (le_refl _)]
    rw [List.take_of_length_le (by simp)]
    simpa using hw

lemma goodLine_front {fn fb : Font} {maxw : Nat} {l : WLine} {t : Tok}
    (h : goodLine fn fb maxw (l ++ [t])) : goodLine fn fb maxw l := by
  intro k h1 h2
  have := h k h1 (by simp; omega)
  unfold fitsAt at this ⊢
  rwa [List.getD_append _ _ _ _ h2, List.take_append_of_le_length (by omega)] at this

/-- Master invariant of the greedy loop: all closed lines are non-empty and
`goodLine`, the current line is `goodLine`, and the tokens are conserved in
order. -/
lemma wrapFold_spec (fn fb : Font) (maxw : Nat) :
    ∀ (toks : List Tok) (st : List WLine × WLine),
      (∀ l ∈ st.1, l ≠ [] ∧ goodLine fn fb maxw l) →
      goodLine fn fb maxw st.2 →
      (∀ l ∈ (toks.foldl (wrapStep fn fb maxw) st).1, l ≠ [] ∧ goodLine fn fb maxw l) ∧
        goodLine fn fb maxw (toks.foldl (wrapStep fn fb maxw) st).2 ∧
        (toks.foldl (wrapStep fn fb maxw) st).1.flatten ++
            (toks.foldl (wrapStep fn fb maxw) st).2 =
          st.1.flatten ++ st.2 ++ toks := by
  intro toks
  induction toks with
  | nil =>
    intro st h1 h2
    simpa using ⟨h1, h2⟩
  | cons tok toks ih =>
    intro st h1 h2
    rw [List.foldl_cons]
    by_cases hc : tokFont fn fb tok (joinSp (st.2.map (·.1) ++ [tok.1])) ≤ maxw ∨ st.2 = []
    · have hstep : wrapStep fn fb maxw st tok = (st.1, st.2 ++ [tok]) := by
        simp only [wrapStep]
        rw [if_pos hc]
      rw [hstep]
      have h2' : goodLine fn fb maxw (st.2 ++ [tok]) := by
        rcases hc with hc | hc
        · exact goodLine_append h2 hc
        · rw [hc]
          exact goodLine_singleton fn fb maxw tok
      obtain ⟨H1, H2, H3⟩ := ih (st.1, st.2 ++ [tok]) h1 h2'
      refine ⟨H1, H2, ?_⟩
      rw [H3]
      simp [List.append_assoc]
    · have hne : st.2 ≠ [] := fun h => hc (Or.inr h)
      have hstep : wrapStep fn fb maxw st tok = (st.1 ++ [st.2], [tok]) := by
        simp only [wrapStep]
        rw [if_neg hc]
      rw [hstep]
      have h1' : ∀ l ∈ st.1 ++ [st.2], l ≠ [] ∧ goodLine fn fb maxw l := by
        intro l hl
        rcases List.mem_append.mp hl with hl | hl
        · exact h1 l hl
        · have : l = st.2 := by simpa using hl
          subst this
          exact ⟨hne, h2⟩
      obtain ⟨H1, H2, H3⟩ := ih (st.1 ++ [st.2], [tok]) h1' (goodLine_singleton fn fb maxw tok)
      refine ⟨H1, H2, ?_⟩
      rw [H3]
      simp [List.append_assoc]

/-- Every line returned by the greedy loop is non-empty and `goodLine`. -/
lemma mem_wrapTokens {fn fb : Font} {maxw : Nat} {toks : List Tok} {l : WLine}
    (h : l ∈ wrapTokens fn fb maxw toks) : l ≠ [] ∧ goodLine fn fb maxw l := by
  obtain ⟨H1, H2, _⟩ :=
    wrapFold_spec fn fb maxw toks ([], []) (by simp) (goodLine_nil fn fb maxw)
  simp only [wrapTokens] at h
  split at h
  · exact H1 l h
  next hne =>
    rcases List.mem_append.mp h with hl | hl
    · exact H1 l hl
    · have : l = (toks.foldl (wrapStep fn fb maxw) ([], [])).2 := by simpa using hl
      subst this
      exact ⟨hne, H2⟩

/-- Token conservation: flattening the produced lines gives back exactly the
input token sequence. -/
lemma wrapTokens_flatten (fn fb : Font) (maxw : Nat) (toks : List Tok) :
    (wrapTokens fn fb maxw toks).flatten = toks := by
  obtain ⟨_, _, H3⟩ :=
    wrapFold_spec fn fb maxw toks ([], []) (by simp) (goodLine_nil fn fb maxw)
  simp only [wrapTokens]
  split
  next h2 =>
    rw [h2] at H3
    simpa using H3
  next h2 =>
    simpa using H3

/-- Re-running the greedy loop on the tokens of a `goodLine` keeps them all
on one line. -/
lemma rewrap_fold (fn fb : Font) (maxw : Nat) :
    ∀ l : WLine, goodLine fn fb maxw l →
      l.foldl (wrapStep fn fb maxw) ([], []) = ([], l) := by
  intro l
  induction l using List.reverseRecOn with
  | nil => intro _; rfl
  | append_singleton l t ih =>
    intro hg
    rw [List.foldl_append, ih (goodLine_front hg)]
    simp only [List.foldl_cons, List.foldl_nil]
    by_cases hl : l = []
    · subst hl
      simp [wrapStep]
    · have hfit := hg l.length (by
        have := List.length_pos.mpr hl
        omega) (by simp)
      unfold fitsAt at hfit
      rw [List.getD_append_right _ _ _ _ (le_refl _), List.take_of_length_le (by simp)] at hfit
      simp only [Nat.sub_self, List.getD_cons_zero, List.map_append] at hfit
      simp only [wrapStep]
      rw [if_pos (Or.inl (by simpa using hfit))]

lemma rewrap_eq {fn fb : Font} {maxw : Nat} {l : WLine} (hne : l ≠ [])
    (hg : goodLine fn fb maxw l) : wrapTokens fn fb maxw l = [l] := by
  simp only [wrapTokens, rewrap_fold fn fb maxw l hg]
  simp [hne]

lemma parse_bold_concat_aux :
    ∀ (n : Nat) (t : Str), t.length ≤ n → balancedBold t = true →
      segsText (parse_bold_text t) = removeMarkers t := by
  intro n
  induction n with
  | zero =>
    intro t ht _
    have : t = [] := List.length_eq_zero.mp (by omega)
    subst this
    rfl
  | succ n ih =>
    intro t ht hb
    cases hx : splitFirstMarker t with
    | none =>
      rw [parse_bold_none hx, removeMarkers_none hx]
      split
      · simp [segsText, *]
      · simp [segsText]
    | some pr =>
      obtain ⟨before, after⟩ := pr
      cases hy : splitFirstMarker after with
      | none =>
        rw [balancedBold_unmatched hx hy] at hb
        simp at hb
      | some pr2 =>
        obtain ⟨bold, rest⟩ := pr2
        have hL1 := splitFirstMarker_len hx
        have hL2 := splitFirstMarker_len hy
        rw [balancedBold_matched hx hy] at hb
        have hrest := ih rest (by omega) hb
        rw [parse_bold_matched hx hy]
        simp only [segsText_append, segsText_if, hrest]
        rw [removeMarkers_split hx, removeMarkers_split hy]
        simp [List.append_assoc]

/-! ## Lemmas about the card composer -/

lemma map_getD_range {α : Type} (l : List α) (d : α) :
    (List.range l.length).map (fun i => l.getD i d) = l := by
  induction l with
  | nil => rfl
  | cons a tl ih =>
    have h : ((fun i => (a :: tl).getD i d) ∘ Nat.succ) = fun i => tl.getD i d := by
      funext i
      rfl
    rw [List.length_cons, List.range_succ_eq_map, List.map_cons, List.map_map, h, ih]
    rfl

/-- The 5x5 grid fully evaluated: flat cell `p` holds `others[p]` before the
center, the free space at (2,2), and `others[p-1]` after it. -/
lemma buildCard_eq (free : Str) (others : List Str) :
    buildCard free others =
      [[others.getD 0 free, others.getD 1 free, others.getD 2 free,
        others.getD 3 free, others.getD 4 free],
       [others.getD 5 free, others.getD 6 free, others.getD 7 free,
        others.getD 8 free, others.getD 9 free],
       [others.getD 10 free, others.getD 11 free, free,
        others.getD 12 free, others.getD 13 free],
       [others.getD 14 free, others.getD 15 free, others.getD 16 free,
        others.getD 17 free, others.getD 18 free],
       [others.getD 19 free, others.getD 20 free, others.getD 21 free,
        others.getD 22 free, others.getD 23 free]] := rfl

lemma centerCell_buildCard (free : Str) (others : List Str) :
    centerCell (buildCard free others) = free := rfl

lemma nonCenterCells_buildCard (free : Str) (others : List Str) :
    nonCenterCells (buildCard free others) =
      (List.range 24).map (fun i => others.getD i free) := rfl

lemma nonCenterCells_eq {free : Str} {others : List Str} (h : others.length = 24) :
    nonCenterCells (buildCard free others) = others := by
  rw [nonCenterCells_buildCard, ← h, map_getD_range]

/-- With an empty extension list the padding loop makes no progress: it runs
out of any amount of fuel, i.e. the Python `while` loop never terminates. -/
lemma padWhile_nil_none : ∀ (fuel : Nat) (cur : List Str), cur.length < 24 →
    padWhile [] fuel cur = none := by
  intro fuel
  induction fuel with
  | zero =>
    intro cur h
    simp [padWhile, h]
  | succ fuel ih =>
    intro cur h
    rw [padWhile, if_pos h, List.append_nil]
    exact ih cur h

/-! ## Lemmas about the four-per-page PDF assembler -/

/-- A non-final iteration of the four-per-page loop (card `i` with
`i < n - 1`): the last-card test is false and a page break follows every
footer. -/
def fourMidStep (st : List PdfEvent × Nat × Nat) (i : Nat) :
    List PdfEvent × Nat × Nat :=
  let evs := st.1 ++ [.draw i st.2.1, .label i]
  if 4 ≤ st.2.1 + 1 then (evs ++ [.footer st.2.2, .pageBreak], 0, st.2.2 + 1)
  else (evs, st.2.1 + 1, st.2.2)

lemma fourStep_eq_mid {n i : Nat} (h : i < n - 1) (st : List PdfEvent × Nat × Nat) :
    fourStep n st i = fourMidStep st i := by
  have hne : ¬ i = n - 1 := by omega
  by_cases hc : 4 ≤ st.2.1 + 1
  · simp [fourStep, fourMidStep, hc, h, hne]
  · simp [fourStep, fourMidStep, hc, hne]

/-- The complete pages and the current partial page after `k` non-final
iterations of the loop. -/
def midPages : Nat → List (List PdfEvent) × List PdfEvent
  | 0 => ([], [])
  | k + 1 =>
    let cur := (midPages k).2 ++ [.draw k (k % 4), .label k]
    if k % 4 = 3 then ((midPages k).1 ++ [cur ++ [.footer (k / 4 + 1)]], [])
    else ((midPages k).1, cur)

/-- Trace corresponding to complete pages `ps` (each followed by a page
break) and a trailing partial page `cur`. -/
def flattenPages (ps : List (List PdfEvent)) (cur : List PdfEvent) : List PdfEvent :=
  (ps.map (· ++ [PdfEvent.pageBreak])).flatten ++ cur

lemma foldl_congr_mem {α β : Type} {f g : α → β → α} {l : List β}
    (h : ∀ b ∈ l, ∀ a, f a b = g a b) :
    ∀ init : α, l.foldl f init = l.foldl g init := by
  induction l with
  | nil => intro _; rfl
  | cons b l ih =>
    intro init
    rw [List.foldl_cons, List.foldl_cons, h b (by simp)]
    exact ih (fun x hx a => h x (by simp [hx]) a) _

lemma mid_fold_eq : ∀ k : Nat,
    (List.range k).foldl fourMidStep ([], 0, 1) =
      (flattenPages (midPages k).1 (midPages k).2, k % 4, k / 4 + 1) := by
  intro k
  induction k with
  | zero => rfl
  | succ k ih =>
    rw [List.range_succ, List.foldl_append, ih]
    simp only [List.foldl_cons, List.foldl_nil]
    by_cases hc : k % 4 = 3
    · have h4 : 4 ≤ k % 4 + 1 := by omega
      have e1 : (k + 1) % 4 = 0 := by omega
      have e2 : (k + 1) / 4 = k / 4 + 1 := by omega
      simp only [fourMidStep, midPages, if_pos h4, if_pos hc, e1, e2]
      congr 1
      simp [flattenPages, List.append_assoc]
    · have h4 : ¬ 4 ≤ k % 4 + 1 := by omega
      have e1 : (k + 1) % 4 = k % 4 + 1 := by omega
      have e2 : (k + 1) / 4 = k / 4 := by omega
      simp only [fourMidStep, midPages, if_neg h4, if_neg hc, e1, e2]
      congr 1
      simp [flattenPages, List.append_assoc]

/-- Closed form of the four-per-page trace for `n ≥ 1` cards: `n - 1`
non-final iterations followed by the final card's draw, label and footer
(no trailing page break). -/
lemma fourTrace_eq {n : Nat} (hn : 1 ≤ n) :
    fourPerPageTrace n =
      flattenPages (midPages (n - 1)).1
        ((midPages (n - 1)).2 ++
          [.draw (n - 1) ((n - 1) % 4), .label (n - 1), .footer ((n - 1) / 4 + 1)]) := by
  obtain ⟨m, rfl⟩ : ∃ m, n = m + 1 := ⟨n - 1, by omega⟩
  unfold fourPerPageTrace
  rw [List.range_succ, List.foldl_append]
  have hmid : (List.range m).foldl (fourStep (m + 1)) ([], 0, 1) =
      (List.range m).foldl fourMidStep ([], 0, 1) := by
    apply foldl_congr_mem
    intro i hi a
    exact fourStep_eq_mid (by simp at hi; omega) a
  rw [hmid, mid_fold_eq]
  simp only [List.foldl_cons, List.foldl_nil, fourStep]
  rw [if_pos (Or.inr (by omega)), if_neg (by omega : ¬ m < m + 1 - 1)]
  simp [flattenPages, List.append_assoc]

lemma splitPages_no_break {evs : List PdfEvent} (h : PdfEvent.pageBreak ∉ evs) :
    splitPages evs = [evs] := by
  induction evs with
  | nil => rfl
  | cons e rest ih =>
    simp only [List.mem_cons, not_or] at h
    have he : ¬ e = PdfEvent.pageBreak := fun hh => h.1 hh.symm
    rw [splitPages, if_neg he, ih h.2]

lemma splitPages_break_cons (p rest : List PdfEvent) (h : PdfEvent.pageBreak ∉ p) :
    splitPages (p ++ PdfEvent.pageBreak :: rest) = p :: splitPages rest := by
  induction p with
  | nil =>
    simp [splitPages]
  | cons e p ih =>
    simp only [List.mem_cons, not_or] at h
    have he : ¬ e = PdfEvent.pageBreak := fun hh => h.1 hh.symm
    rw [List.cons_append, splitPages, if_neg he, ih h.2]

lemma splitPages_flatten : ∀ (ps : List (List PdfEvent)) (cur : List PdfEvent),
    (∀ p ∈ ps, PdfEvent.pageBreak ∉ p) → PdfEvent.pageBreak ∉ cur →
    splitPages (flattenPages ps cur) = ps ++ [cur] := by
  intro ps
  induction ps with
  | nil =>
    intro cur _ hc
    simp only [flattenPages, List.map_nil, List.flatten_nil, List.nil_append]
    exact splitPages_no_break hc
  | cons p ps ih =>
    intro cur hp hc
    have hstep : flattenPages (p :: ps) cur = p ++ PdfEvent.pageBreak :: flattenPages ps cur := by
      simp [flattenPages, List.append_assoc]
    rw [hstep, splitPages_break_cons p _ (hp p (by simp)),
      ih cur (fun q hq => hp q (by simp [hq])) hc]
    rfl

lemma drawCount_append (xs ys : List PdfEvent) :
    drawCount (xs ++ ys) = drawCount xs + drawCount ys := by
  simp [drawCount]

lemma footerNums_append (xs ys : List PdfEvent) :
    footerNums (xs ++ ys) = footerNums xs ++ footerNums ys := by
  simp [footerNums]

lemma drawCount_flatten : ∀ (ps : List (List PdfEvent)) (cur : List PdfEvent),
    drawCount (flattenPages ps cur) = (ps.map drawCount).sum + drawCount cur := by
  intro ps
  induction ps with
  | nil => intro cur; simp [flattenPages]
  | cons p ps ih =>
    intro cur
    have hstep : flattenPages (p :: ps) cur = p ++ PdfEvent.pageBreak :: flattenPages ps cur := by
      simp [flattenPages, List.append_assoc]
    rw [hstep]
    have : drawCount (PdfEvent.pageBreak :: flattenPages ps cur) = drawCount (flattenPages ps cur) := by
      simp [drawCount, isDrawEv]
    rw [drawCount_append, this, ih]
    simp [Nat.add_assoc]

lemma count_break_flatten : ∀ (ps : List (List PdfEvent)) (cur : List PdfEvent),
    (∀ p ∈ ps, PdfEvent.pageBreak ∉ p) → PdfEvent.pageBreak ∉ cur →
    (flattenPages ps cur).count PdfEvent.pageBreak = ps.length := by
  intro ps
  induction ps with
  | nil =>
    intro cur _ hc
    simp only [flattenPages, List.map_nil, List.flatten_nil, List.nil_append, List.length_nil]
    exact List.count_eq_zero.mpr hc
  | cons p ps ih =>
    intro cur hp hc
    have hstep : flattenPages (p :: ps) cur = p ++ PdfEvent.pageBreak :: flattenPages ps cur := by
      simp [flattenPages, List.append_assoc]
    rw [hstep, List.count_append, List.count_cons_self,
      List.count_eq_zero.mpr (hp p (by simp)), ih cur (fun q hq => hp q (by simp [hq])) hc]
    simp [Nat.add_comm]

/-- Invariant of the completed pages and partial page after `k` non-final
iterations: page counts, per-page draw counts, per-page footers, and the
partial page's draw count. -/
lemma midPages_spec : ∀ k : Nat,
    (midPages k).1.length = k / 4 ∧
    (∀ p ∈ (midPages k).1, PdfEvent.pageBreak ∉ p ∧ drawCount p = 4) ∧
    (∀ j, j < (midPages k).1.length →
      footerNums ((midPages k).1.getD j []) = [j + 1] ∧
      ((midPages k).1.getD j []).getLastD PdfEvent.pageBreak = PdfEvent.footer (j + 1)) ∧
    PdfEvent.pageBreak ∉ (midPages k).2 ∧
    drawCount (midPages k).2 = k % 4 ∧
    footerNums (midPages k).2 = [] := by
  intro k
  induction k with
  | zero =>
    refine ⟨rfl, by simp [midPages], by simp [midPages], by simp [midPages], rfl, rfl⟩
  | succ k ih =>
    obtain ⟨h1, h2, h3, h4, h5, h6⟩ := ih
    by_cases hc : k % 4 = 3
    · have hmid : midPages (k + 1) =
          ((midPages k).1 ++
            [((midPages k).2 ++ [.draw k (k % 4), .label k]) ++ [.footer (k / 4 + 1)]], []) := by
        simp only [midPages, if_pos hc]
      rw [hmid]
      have e1 : (k + 1) / 4 = k / 4 + 1 := by omega
      have e2 : (k + 1) % 4 = 0 := by omega
      refine ⟨by simp [h1, e1], ?_, ?_, by simp, by simp [drawCount, e2], by simp [footerNums]⟩
      · intro p hp
        rcases List.mem_append.mp hp with hp | hp
        · exact h2 p hp
        · have hpe : p = ((midPages k).2 ++ [.draw k (k % 4), .label k]) ++ [.footer (k / 4 + 1)] := by
            simpa using hp
          subst hpe
          constructor
          · simp only [List.mem_append, List.mem_cons, List.mem_singleton, not_or]
            refine ⟨⟨h4, by simp⟩, by simp⟩
          · rw [drawCount_append, drawCount_append]
            simp only [h5]
            have : drawCount [PdfEvent.draw k (k % 4), PdfEvent.label k] = 1 := by
              simp [drawCount, isDrawEv]
            have hfoot : drawCount [PdfEvent.footer (k / 4 + 1)] = 0 := by
              simp [drawCount, isDrawEv]
            omega
      · intro j hj
        simp only [List.length_append, List.length_singleton, h1] at hj
        rcases Nat.lt_or_ge j (k / 4) with hjlt | hjge
        · rw [List.getD_append _ _ _ _ (by omega : j < (midPages k).1.length)]
          exact h3 j (by omega)
        · have hje : j = k / 4 := by omega
          subst hje
          rw [List.getD_append_right _ _ _ _ (by omega : (midPages k).1.length ≤ k / 4)]
          have hz : k / 4 - (midPages k).1.length = 0 := by omega
          rw [hz]
          simp only [List.getD_cons_zero]
          constructor
          · rw [footerNums_append, footerNums_append, h6]
            simp [footerNums]
          · simp [List.getLastD_concat]
    · have hmid : midPages (k + 1) =
          ((midPages k).1, (midPages k).2 ++ [.draw k (k % 4), .label k]) := by
        simp only [midPages, if_neg hc]
      rw [hmid]
      have e1 : (k + 1) / 4 = k / 4 := by omega
      have e2 : (k + 1) % 4 = k % 4 + 1 := by omega
      refine ⟨by simp [h1, e1], h2, h3, ?_, ?_, ?_⟩
      · simp only [List.mem_append, List.mem_cons, List.mem_singleton, not_or]
        refine ⟨h4, by simp⟩
      · rw [drawCount_append, h5]
        have : drawCount [PdfEvent.draw k (k % 4), PdfEvent.label k] = 1 := by
          simp [drawCount, isDrawEv]
        omega
      · rw [footerNums_append, h6]
        simp [footerNums]

/-! ## Single-token behaviour of the two wrap functions -/

lemma pySplit_single {w : Str} (hne : w ≠ []) (hws : ∀ c ∈ w, ¬ c.isWhitespace) :
    pySplit w = [w] := by
  induction w with
  | nil => exact absurd rfl hne
  | cons c rest ih =>
    have hc : ¬ c.isWhitespace := hws c (by simp)
    cases rest with
    | nil => simp [pySplit, hc]
    | cons d rest2 =>
      have hd : ¬ d.isWhitespace := hws d (by simp)
      have hrest := ih (by simp) (fun x hx => hws x (by simp [hx]))
      rw [pySplit.eq_3, if_neg hc, if_neg hd, hrest]

/-- The token list of a single marker-free, whitespace-free, unsplit word. -/
lemma boldTokens_single {w : Str} (hne : w ≠ []) (hws : ∀ c ∈ w, ¬ c.isWhitespace)
    (hsl : ¬ ('/' ∈ w ∧ 6 < w.length)) (hnb : splitFirstMarker w = none) :
    boldTokens w = [(w, false)] := by
  unfold boldTokens
  rw [parse_bold_none hnb, if_neg hne]
  simp only [List.flatMap_cons, List.flatMap_nil, List.append_nil, segTokens]
  rw [pySplit_single hne hws]
  simp only [List.flatMap_cons, List.flatMap_nil, List.append_nil]
  rw [slashSplit, if_neg hsl]
  rfl

/-- `wrap_text_with_bold` never breaks a token: a single over-wide token is
emitted unbroken as its own line. -/
lemma wrap_bold_single {w : Str} {fn fb : Font} {maxw : Nat}
    (hne : w ≠ []) (hws : ∀ c ∈ w, ¬ c.isWhitespace)
    (hsl : ¬ ('/' ∈ w ∧ 6 < w.length)) (hnb : splitFirstMarker w = none) :
    wrap_text_with_bold w fn fb maxw = [[(w, false)]] := by
  unfold wrap_text_with_bold
  rw [boldTokens_single hne hws hsl hnb]
  simp only [wrapTokens, List.foldl_cons, List.foldl_nil, wrapStep]
  simp

lemma wrap_text_pil_single_hyphen {w : Str} {font : Font} {maxw : Nat}
    (hne : w ≠ []) (hws : ∀ c ∈ w, ¬ c.isWhitespace)
    (hsl : ¬ ('/' ∈ w ∧ 6 < w.length))
    (hwide : maxw < font w) (hlen : 12 < w.length) (hhyp : '-' ∈ w) :
    wrap_text_pil w font maxw =
      (w.splitOn '-').dropLast.map (· ++ ['-']) ++ [(w.splitOn '-').getLastD []] := by
  unfold wrap_text_pil
  rw [pySplit_single hne hws]
  simp only [List.flatMap_cons, List.flatMap_nil, List.append_nil]
  rw [slashSplit, if_neg hsl]
  simp only [List.foldl_cons, List.foldl_nil]
  have hstep : wrapPilStep font maxw ([], []) w =
      ((w.splitOn '-').dropLast.map (· ++ ['-']), [(w.splitOn '-').getLastD []]) := by
    simp only [wrapPilStep]
    rw [List.nil_append, joinSp_singleton, if_neg (Nat.not_le.mpr hwide),
      if_neg (show ¬ (([] : List Str) ≠ []) by simp), if_pos (And.intro hwide hlen),
      if_pos hhyp]
    simp
  rw [hstep]
  rw [if_neg (by simp), joinSp_singleton]

lemma wrap_text_pil_single_chunks {w : Str} {font : Font} {maxw : Nat}
    (hne : w ≠ []) (hws : ∀ c ∈ w, ¬ c.isWhitespace)
    (hsl : ¬ ('/' ∈ w ∧ 6 < w.length))
    (hwide : maxw < font w) (hlen : 12 < w.length) (hhyp : '-' ∉ w) :
    wrap_text_pil w font maxw = (chunks8 w).1 ++ [(chunks8 w).2] := by
  unfold wrap_text_pil
  rw [pySplit_single hne hws]
  simp only [List.flatMap_cons, List.flatMap_nil, List.append_nil]
  rw [slashSplit, if_neg hsl]
  simp only [List.foldl_cons, List.foldl_nil]
  have hstep : wrapPilStep font maxw ([], []) w = ((chunks8 w).1, [(chunks8 w).2]) := by
    simp only [wrapPilStep]
    rw [List.nil_append, joinSp_singleton, if_neg (Nat.not_le.mpr hwide),
      if_neg (show ¬ (([] : List Str) ≠ []) by simp), if_pos (And.intro hwide hlen),
      if_neg hhyp]
    simp
  rw [hstep]
  rw [if_neg (by simp), joinSp_singleton]

lemma sum_map_drawCount_four {ps : List (List PdfEvent)}
    (h : ∀ p ∈ ps, drawCount p = 4) : (ps.map drawCount).sum = 4 * ps.length := by
  induction ps with
  | nil => rfl
  | cons p ps ih =>
    rw [List.map_cons, List.sum_cons, h p (by simp),
      ih (fun q hq => h q (by simp [hq]))]
    simp [List.length_cons]
    ring

/-! ## Concrete inputs used in witnesses and counterexamples -/

/-- Width model used in concrete examples: ten pixels per character. -/
def cw10 : Font := fun s => 10 * s.length

/-- A 25-square pool: free space plus 24 distinct letters. -/
def c1pool : List Str :=
  ["F", "A", "B", "C", "D", "E", "G", "H", "I", "J", "K", "L", "M",
   "N", "O", "P", "Q", "R", "S", "T", "U", "V", "W", "X", "Y"].map String.toList

/-- A 15-character hyphenated word that cannot fit at width 20 with `cw10`. -/
def cxWord : Str := "abcdefg-hijklmn".toList

/-- Ten one-character words: wraps to 10 lines at width 5 at every tier. -/
def cxText : Str := "a a a a a a a a a a".toList

def cxFonts : FontTier → Font × Font := fun _ => (cw10, cw10)

/-! ## Claim theorems -/

/-- C1: for every pool of at least 25 squares, `create_bingo_card` (with
`random.sample` modelled by any `sample` returning a 24-element
sub-permutation of `pool[1:]` — i.e. 24 draws without replacement — and
`random.shuffle` by any permutation) returns a card whose center cell
(row 2, column 2) is the first pool element, whose 24 other cells are
exactly the sampled squares, drawn from `pool[1:]` without replacement
(hence pairwise distinct whenever the pool entries are distinct), and which
for a pool of exactly 25 squares holds a permutation of `pool[1:]` in its
non-center cells. -/
theorem c1_card_composition (sample shuffle : List Str → List Str)
    (squares : List Str) (fuel : Nat)
    (hlen : 25 ≤ squares.length)
    (hsub : sample (squares.drop 1) <+~ squares.drop 1)
    (hsl : (sample (squares.drop 1)).length = 24)
    (hsh : shuffle (sample (squares.drop 1)) ~ sample (squares.drop 1)) :
    create_bingo_card sample shuffle squares fuel =
        some (buildCard (freeSpaceOf squares) (shuffle (sample (squares.drop 1)))) ∧
      centerCell (buildCard (freeSpaceOf squares) (shuffle (sample (squares.drop 1)))) =
        squares.headD ("FREE".toList) ∧
      nonCenterCells (buildCard (freeSpaceOf squares) (shuffle (sample (squares.drop 1)))) =
        shuffle (sample (squares.drop 1)) ∧
      nonCenterCells (buildCard (freeSpaceOf squares) (shuffle (sample (squares.drop 1)))) <+~
        squares.drop 1 ∧
      ((squares.drop 1).Nodup →
        (nonCenterCells (buildCard (freeSpaceOf squares)
          (shuffle (sample (squares.drop 1))))).Nodup) ∧
      (squares.length = 25 →
        nonCenterCells (buildCard (freeSpaceOf squares) (shuffle (sample (squares.drop 1)))) ~
          squares.drop 1) := by
  have hlen24 : (shuffle (sample (squares.drop 1))).length = 24 := by
    rw [hsh.length_eq, hsl]
  have hsub' : shuffle (sample (squares.drop 1)) <+~ squares.drop 1 :=
    hsh.subperm.trans hsub
  have hnc : nonCenterCells (buildCard (freeSpaceOf squares)
      (shuffle (sample (squares.drop 1)))) = shuffle (sample (squares.drop 1)) :=
    nonCenterCells_eq hlen24
  refine ⟨?_, ?_, hnc, ?_, ?_, ?_⟩
  · have h1 : 1 < squares.length := by omega
    have h2 : ¬ (squares.drop 1).length < 24 := by
      simp only [List.length_drop]
      omega
    simp only [create_bingo_card, if_pos h1, if_neg h2]
  · rw [centerCell_buildCard]
    rfl
  · rw [hnc]
    exact hsub'
  · intro hnodup
    rw [hnc]
    obtain ⟨l, hp, hs⟩ := hsub'
    exact hp.nodup_iff.mp (hs.nodup hnodup)
  · intro h25
    rw [hnc]
    refine hsub'.perm_of_length_le ?_
    rw [hlen24]
    simp only [List.length_drop]
    omega

/-- C1 witness: the identity `sample`/`shuffle` satisfy the random
contracts for the 25-square pool, and the theorem yields the permutation
property of the scenario. -/
theorem c1_witness :
    25 ≤ c1pool.length ∧
      centerCell (buildCard (freeSpaceOf c1pool) (id (id (c1pool.drop 1)))) =
        c1pool.headD ("FREE".toList) ∧
      nonCenterCells (buildCard (freeSpaceOf c1pool) (id (id (c1pool.drop 1)))) ~
        c1pool.drop 1 :=
  ⟨by decide,
   (c1_card_composition id id c1pool 0 (by decide) (List.Subperm.refl _) (by decide)
      (List.Perm.refl _)).2.1,
   (c1_card_composition id id c1pool 0 (by decide) (List.Subperm.refl _) (by decide)
      (List.Perm.refl _)).2.2.2.2.2 (by decide)⟩

/-- C2 (code bug): with a pool of exactly one square the candidate list is
empty and `squares[1:min(len(squares), 24)]` is also empty, so each pass of
the `while len(other_squares) < 24` loop extends `other_squares` by nothing:
the loop never terminates.  In the fuel model, `create_bingo_card` returns
`none` for every fuel bound, for every `sample`/`shuffle`. -/
theorem c2_singleton_pool_diverges (sample shuffle : List Str → List Str) (fuel : Nat) :
    create_bingo_card sample shuffle [("FREE".toList)] fuel = none := by
  have h1 : ¬ 1 < ([("FREE".toList)] : List Str).length := by simp
  have hps : padSource [("FREE".toList)] = [] := rfl
  simp only [create_bingo_card, if_neg h1, hps]
  rw [if_pos (by simp : ([] : List Str).length < 24),
    padWhile_nil_none fuel [] (by simp)]
  rfl

/-- C3: every line produced by `wrap_text_with_bold` is non-empty, and its
measured width (the joined words measured with the font of the line's last
token, exactly as the loop measured it) is at most `maxw`, or else the line
is a single token that on its own exceeds `maxw`. -/
theorem c3_wrap_lines_fit (text : Str) (fn fb : Font) (maxw : Nat) (l : WLine)
    (hmem : l ∈ wrap_text_with_bold text fn fb maxw) :
    l ≠ [] ∧
      (lineWidth fn fb l ≤ maxw ∨
        ∃ t : Tok, l = [t] ∧ maxw < tokFont fn fb t t.1) := by
  obtain ⟨hne, hg⟩ := mem_wrapTokens hmem
  refine ⟨hne, ?_⟩
  by_cases hw : lineWidth fn fb l ≤ maxw
  · exact Or.inl hw
  · right
    rcases l with _ | ⟨t, rest⟩
    · exact absurd rfl hne
    rcases rest with _ | ⟨t2, rest2⟩
    · refine ⟨t, rfl, ?_⟩
      have he : lineWidth fn fb [t] = tokFont fn fb t t.1 := by
        simp [lineWidth, lineText, joinSp_singleton]
      rw [he] at hw
      omega
    · exfalso
      have hfit := hg ((t :: t2 :: rest2).length - 1) (by simp) (by simp)
      unfold fitsAt at hfit
      rw [Nat.sub_add_cancel (by simp), List.take_length] at hfit
      exact hw hfit

theorem c3_witness :
    ([(("hi").toList, false), (("there").toList, false)] ∈
        wrap_text_with_bold ("hi there you".toList) cw10 cw10 100) ∧
      [(("hi").toList, false), (("there").toList, false)] ≠ ([] : WLine) :=
  ⟨by decide,
   (c3_wrap_lines_fit ("hi there you".toList) cw10 cw10 100
      [(("hi").toList, false), (("there").toList, false)] (by decide)).1⟩

/-- C4: for a balanced input the segment texts of `parse_bold_text`
concatenate to the input with the `**` markers removed; for an input whose
first `**` marker has no matching closing marker, the marker and all
trailing text are returned as one final literal non-bold segment. -/
theorem c4_bold_roundtrip (t : Str) :
    (balancedBold t = true → segsText (parse_bold_text t) = removeMarkers t) ∧
    (∀ before after : Str, splitFirstMarker t = some (before, after) →
      splitFirstMarker after = none →
      parse_bold_text t =
        (if before = [] then [] else [(before, false)]) ++
          [('*' :: '*' :: after, false)]) := by
  constructor
  · intro hb
    exact parse_bold_concat_aux t.length t (le_refl _) hb
  · intro before after hx hy
    exact parse_bold_unmatched hx hy

theorem c4_witness :
    balancedBold ("a**b**c".toList) = true ∧
      segsText (parse_bold_text ("a**b**c".toList)) = removeMarkers ("a**b**c".toList) ∧
      parse_bold_text ("a**b".toList) =
        (if ("a".toList : Str) = [] then [] else [(("a".toList : Str), false)]) ++
          [('*' :: '*' :: ("b".toList : Str), false)] :=
  ⟨by decide,
   (c4_bold_roundtrip ("a**b**c".toList)).1 (by decide),
   (c4_bold_roundtrip ("a**b".toList)).2 ("a".toList) ("b".toList) (by decide) (by decide)⟩

/-- C5 counterexample: `cxWord` is a whitespace-delimited token longer than
12 characters containing a hyphen that cannot fit at width 20, yet the
Word-Wrap Engine used by the cell renderer (`wrap_text_with_bold`) emits it
unbroken as a single-token line instead of force-breaking it at the hyphen. -/
theorem c5_counterexample :
    12 < cxWord.length ∧ 20 < cw10 cxWord ∧ '-' ∈ cxWord ∧
      wrap_text_with_bold cxWord cw10 cw10 20 = [[(cxWord, false)]] ∧
      wrap_text_with_bold cxWord cw10 cw10 20 ≠
        [[(("abcdefg-").toList, false)], [(("hijklmn").toList, false)]] := by
  decide

/-- C5 amended: the hyphen/8-character force-break of over-long tokens lives
only in `wrap_text_pil`, which the cell renderer never calls; the engine the
cell renderer does use (`wrap_text_with_bold`) never breaks a token — an
over-wide token becomes its own unbroken single-token line. -/
theorem c5_force_break_location (w : Str) (font fn fb : Font) (maxw : Nat)
    (hne : w ≠ []) (hws : ∀ c ∈ w, ¬ c.isWhitespace)
    (hsl : ¬ ('/' ∈ w ∧ 6 < w.length)) (hnb : splitFirstMarker w = none)
    (hwide : maxw < font w) (hlen : 12 < w.length) :
    wrap_text_with_bold w fn fb maxw = [[(w, false)]] ∧
      ('-' ∈ w → wrap_text_pil w font maxw =
        (w.splitOn '-').dropLast.map (· ++ ['-']) ++ [(w.splitOn '-').getLastD []]) ∧
      ('-' ∉ w → wrap_text_pil w font maxw = (chunks8 w).1 ++ [(chunks8 w).2]) :=
  ⟨wrap_bold_single hne hws hsl hnb,
   fun hhyp => wrap_text_pil_single_hyphen hne hws hsl hwide hlen hhyp,
   fun hhyp => wrap_text_pil_single_chunks hne hws hsl hwide hlen hhyp⟩

theorem c5_witness :
    (cxWord ≠ []) ∧
      wrap_text_pil cxWord cw10 20 =
        (cxWord.splitOn '-').dropLast.map (· ++ ['-']) ++
          [(cxWord.splitOn '-').getLastD []] :=
  ⟨by decide,
   (c5_force_break_location cxWord cw10 cw10 cw10 20 (by decide) (by decide) (by decide)
      (by decide) (by decide) (by decide)).2.1 (by decide)⟩

/-- C6 counterexample: in single-block mode (threshold 4, starting at the
large tier for font size 70), a text wrapping to 10 lines at every tier is
demoted only once — the renderer stops at the medium tier with the line
count still above the threshold, even though the small tier is available,
so the demote-and-rewrap step is not "repeated until within threshold or
smallest tier". -/
theorem c6_counterexample :
    ¬ ((fitSingleBlock cxText cxFonts 5 70).2.length ≤ 4 ∨
        (fitSingleBlock cxText cxFonts 5 70).1 = FontTier.small) := by
  decide

/-- C6 amended: when the wrapped line count exceeds the tier threshold the
renderer demotes exactly one tier (large to medium, or medium to small) and
re-wraps once; the step is never repeated, so starting from the large tier
the result is the medium tier even when its line count still exceeds the
threshold; within the threshold nothing is demoted; at the small tier
nothing changes. -/
theorem c6_single_demotion (wrapAt : FontTier → List WLine) (thr : Nat) :
    (∀ t0, (wrapAt t0).length ≤ thr → shrinkOnce wrapAt thr t0 = (t0, wrapAt t0)) ∧
    (∀ t0, thr < (wrapAt t0).length →
        shrinkOnce wrapAt thr t0 = (demoteTier t0, wrapAt (demoteTier t0))) ∧
    (thr < (wrapAt FontTier.large).length → thr < (wrapAt FontTier.medium).length →
        shrinkOnce wrapAt thr FontTier.large = (FontTier.medium, wrapAt FontTier.medium) ∧
        thr < (shrinkOnce wrapAt thr FontTier.large).2.length) := by
  refine ⟨?_, ?_, ?_⟩
  · intro t0 h
    simp [shrinkOnce, Nat.not_lt.mpr h]
  · intro t0 h
    cases t0 <;> simp [shrinkOnce, demoteTier, h]
  · intro h1 h2
    constructor
    · simp [shrinkOnce, h1]
    · simp [shrinkOnce, h1, h2]

theorem c6_witness :
    4 < (cellWrapAt cxText cxFonts 5 FontTier.large).length ∧
      shrinkOnce (cellWrapAt cxText cxFonts 5) 4 FontTier.large =
        (FontTier.medium, cellWrapAt cxText cxFonts 5 FontTier.medium) :=
  ⟨by decide,
   ((c6_single_demotion (cellWrapAt cxText cxFonts 5) 4).2.2 (by decide) (by decide)).1⟩

/-- C7: for `n ≥ 1` card files, `create_multiple_per_page_pdf` draws the
four-per-page loop trace between canvas creation and save; splitting that
trace at the page breaks gives exactly `⌈n/4⌉` pages, every page but the
last holds exactly 4 card placements, page `j` (0-based) ends with its
centered "Page j+1" footer and stamps no other footer, all `n` cards are
placed, and a page break is emitted after every page except the final one. -/
theorem c7_four_per_page (n : Nat) (hn : 1 ≤ n) :
    create_multiple_per_page_pdf true n =
        PdfEvent.canvas :: fourPerPageTrace n ++ [PdfEvent.save] ∧
      (splitPages (fourPerPageTrace n)).length = (n + 3) / 4 ∧
      (∀ p ∈ (splitPages (fourPerPageTrace n)).dropLast, drawCount p = 4) ∧
      (∀ j, j < (splitPages (fourPerPageTrace n)).length →
        footerNums ((splitPages (fourPerPageTrace n)).getD j []) = [j + 1] ∧
        ((splitPages (fourPerPageTrace n)).getD j []).getLastD PdfEvent.pageBreak =
          PdfEvent.footer (j + 1)) ∧
      drawCount (fourPerPageTrace n) = n ∧
      (fourPerPageTrace n).count PdfEvent.pageBreak = (n + 3) / 4 - 1 := by
  obtain ⟨h1, h2, h3, h4, h5, h6⟩ := midPages_spec (n - 1)
  have hlastform :
      (midPages (n - 1)).2 ++
          [PdfEvent.draw (n - 1) ((n - 1) % 4), PdfEvent.label (n - 1),
            PdfEvent.footer ((n - 1) / 4 + 1)] =
        ((midPages (n - 1)).2 ++
          [PdfEvent.draw (n - 1) ((n - 1) % 4), PdfEvent.label (n - 1)]) ++
          [PdfEvent.footer ((n - 1) / 4 + 1)] := by
    simp [List.append_assoc]
  have hnb : PdfEvent.pageBreak ∉
      (midPages (n - 1)).2 ++
        [PdfEvent.draw (n - 1) ((n - 1) % 4), PdfEvent.label (n - 1),
          PdfEvent.footer ((n - 1) / 4 + 1)] := by
    simp only [List.mem_append, List.mem_cons, List.mem_singleton, not_or]
    exact ⟨h4, by simp⟩
  have hsplit : splitPages (fourPerPageTrace n) =
      (midPages (n - 1)).1 ++
        [(midPages (n - 1)).2 ++
          [PdfEvent.draw (n - 1) ((n - 1) % 4), PdfEvent.label (n - 1),
            PdfEvent.footer ((n - 1) / 4 + 1)]] := by
    rw [fourTrace_eq hn]
    exact splitPages_flatten _ _ (fun p hp => (h2 p hp).1) hnb
  refine ⟨?_, ?_, ?_, ?_, ?_, ?_⟩
  · have hne : ¬ n = 0 := by omega
    simp [create_multiple_per_page_pdf, hne]
  · rw [hsplit]
    simp only [List.length_append, List.length_singleton, h1]
    omega
  · intro p hp
    rw [hsplit, List.dropLast_concat] at hp
    exact (h2 p hp).2
  · intro j hj
    rw [hsplit] at hj ⊢
    simp only [List.length_append, List.length_singleton, h1] at hj
    rcases Nat.lt_or_ge j ((n - 1) / 4) with hjlt | hjge
    · rw [List.getD_append _ _ _ _ (by omega : j < (midPages (n - 1)).1.length)]
      exact h3 j (by omega)
    · have hje : j = (n - 1) / 4 := by omega
      subst hje
      rw [List.getD_append_right _ _ _ _ (by omega : (midPages (n - 1)).1.length ≤ (n - 1) / 4)]
      have hz : (n - 1) / 4 - (midPages (n - 1)).1.length = 0 := by omega
      rw [hz]
      simp only [List.getD_cons_zero]
      constructor
      · rw [footerNums_append, h6]
        simp [footerNums]
      · rw [hlastform]
        simp [List.getLastD_concat]
  · rw [fourTrace_eq hn, drawCount_flatten,
      sum_map_drawCount_four (fun p hp => (h2 p hp).2), h1, drawCount_append, h5]
    have : drawCount
        [PdfEvent.draw (n - 1) ((n - 1) % 4), PdfEvent.label (n - 1),
          PdfEvent.footer ((n - 1) / 4 + 1)] = 1 := by
      simp [drawCount, isDrawEv]
    rw [this]
    omega
  · rw [fourTrace_eq hn, count_break_flatten _ _ (fun p hp => (h2 p hp).1) hnb, h1]
    omega

theorem c7_witness :
    1 ≤ 5 ∧ (splitPages (fourPerPageTrace 5)).length = (5 + 3) / 4 :=
  ⟨by decide, (c7_four_per_page 5 (by decide)).2.1⟩

/-- C8: when the `finals` directory does not exist or contains no matching
card files, both PDF assembler operations emit only the error report: no
canvas (PDF document object) is ever constructed and no save is performed,
so no PDF file is created. -/
theorem c8_no_pdf_on_empty (dirExists : Bool) (n : Nat)
    (h : dirExists = false ∨ n = 0) :
    create_bingo_pdf dirExists n = [PdfEvent.error] ∧
      create_multiple_per_page_pdf dirExists n = [PdfEvent.error] ∧
      PdfEvent.canvas ∉ create_bingo_pdf dirExists n ∧
      PdfEvent.save ∉ create_bingo_pdf dirExists n ∧
      PdfEvent.canvas ∉ create_multiple_per_page_pdf dirExists n ∧
      PdfEvent.save ∉ create_multiple_per_page_pdf dirExists n := by
  have h1 : create_bingo_pdf dirExists n = [PdfEvent.error] := by
    rcases h with rfl | rfl
    · simp [create_bingo_pdf]
    · cases dirExists <;> simp [create_bingo_pdf]
  have h2 : create_multiple_per_page_pdf dirExists n = [PdfEvent.error] := by
    rcases h with rfl | rfl
    · simp [create_multiple_per_page_pdf]
    · cases dirExists <;> simp [create_multiple_per_page_pdf]
  rw [h1, h2]
  simp

theorem c8_witness :
    ((true : Bool) = false ∨ (0 : Nat) = 0) ∧ create_bingo_pdf true 0 = [PdfEvent.error] :=
  ⟨Or.inr rfl, (c8_no_pdf_on_empty true 0 (Or.inr rfl)).1⟩

/-- C9: the Word-Wrap Engine is idempotent at the token level — feeding the
(word, isBold) tokens of any produced line back through the greedy loop at
the same max width with the same fonts reproduces that single line with the
same tokens and boundaries. -/
theorem c9_wrap_idempotent (text : Str) (fn fb : Font) (maxw : Nat) (l : WLine)
    (hmem : l ∈ wrap_text_with_bold text fn fb maxw) :
    wrapTokens fn fb maxw l = [l] := by
  obtain ⟨hne, hg⟩ := mem_wrapTokens hmem
  exact rewrap_eq hne hg

theorem c9_witness :
    ([(("ab").toList, false), (("cd").toList, false)] ∈
        wrap_text_with_bold ("ab cd ef".toList) cw10 cw10 50) ∧
      wrapTokens cw10 cw10 50 [(("ab").toList, false), (("cd").toList, false)] =
        [[(("ab").toList, false), (("cd").toList, false)]] :=
  ⟨by decide,
   c9_wrap_idempotent ("ab cd ef".toList) cw10 cw10 50
      [(("ab").toList, false), (("cd").toList, false)] (by decide)⟩

/-- C10: token conservation — concatenating the (word, isBold) tokens of all
lines produced by `wrap_text_with_bold`, in order, yields exactly the token
sequence of the input's bold segments after whitespace splitting and the
slash pre-split, with each token keeping its segment's emphasis flag. -/
theorem c10_token_conservation (text : Str) (fn fb : Font) (maxw : Nat) :
    (wrap_text_with_bold text fn fb maxw).flatten = boldTokens text :=
  wrapTokens_flatten fn fb maxw (boldTokens text)

end Bingo

